import Mathlib

/-!
Verification of the Wumpus-world reinforcement-learning repository
(`tp4.py`, `wumpus_text.py`): a shallow embedding of the state
encoding, the tabular value-learning agents and the grid-world
simulator, together with theorems about the specified properties.

Conventions of the embedding:
* Python lists of integers become `List ℕ` / `List ℤ`.
* Numpy float rewards and table entries become `ℚ` (all constants in
  the program are exact decimals); quantities built from `exp`, `log`
  and `sqrt` become `ℝ`.
* Fallible operations (indexing an empty list, moving with a non-move
  action) return `Option`.
* IEEE special values produced by numpy (`0.0/0.0 = nan`, division of
  a nonzero number by zero) are modelled explicitly by the type `NF`.
-/

namespace Wumpus

/-- Embeds the `Action` enumeration of `wumpus_text.py`
(`IntEnum` with values 1..8). -/
inductive Action where
  | UP
  | DOWN
  | LEFT
  | RIGHT
  | FLASH_UP
  | FLASH_DOWN
  | FLASH_LEFT
  | FLASH_RIGHT
deriving DecidableEq, Repr

/-- Integer value of an action, as declared in the `IntEnum`
(actions start at 1). -/
def Action.toId : Action → ℕ
  | .UP => 1
  | .DOWN => 2
  | .LEFT => 3
  | .RIGHT => 4
  | .FLASH_UP => 5
  | .FLASH_DOWN => 6
  | .FLASH_LEFT => 7
  | .FLASH_RIGHT => 8

/-- Size of the action enumeration: `len(Action)`. -/
def actionCount : ℕ := 8

/-- Embeds `ravel(coords, dims)` of `tp4.py`:
`id = coords[0]; for s, dim in zip(coords[1:], dims[1:]): id = id*dim + s`.
Indexing `coords[0]` fails on an empty list, hence the `Option`. -/
def ravel (coords dims : List ℕ) : Option ℕ :=
  match coords with
  | [] => none
  | c :: cs =>
      some ((cs.zip dims.tail).foldl (fun id p => id * p.2 + p.1) c)

/-- The loop of the spec contract, written over positions:
`for i in 1..k-1: index = index*d_i + O[i]`, starting from `index` at
position `i`. -/
def specLoop (O D : List ℕ) (index i : ℕ) : ℕ :=
  if i < O.length then
    specLoop O D (index * D.getD i 0 + O.getD i 0) (i + 1)
  else
    index
termination_by O.length - i

/-- The flattening function exactly as the spec words it:
`index = O[0]; for i in 1..k-1: index = index*d_i + O[i]`. -/
def specFlatten (O D : List ℕ) : Option ℕ :=
  match O with
  | [] => none
  | o :: _ => some (specLoop O D o 1)

/-- The fold step shared by `ravel` and the spec recurrence. -/
def ravelStep (id : ℕ) (p : ℕ × ℕ) : ℕ := id * p.2 + p.1

/-- Mixed-radix decomposition from the least significant (last) digit:
given the dimension sizes after the first one, split an index into the
remaining quotient and the digits for those dimensions. -/
def unravelAux : List ℕ → ℕ → ℕ × List ℕ
  | [], n => (n, [])
  | d :: ds, n =>
      let p := unravelAux ds n
      (p.1 / d, p.1 % d :: p.2)

/-- Modelled from the spec: `unflatten(index, D)`, the inverse of the
row-major flattening; the repository only defines the forward
direction (`ravel` in `tp4.py`), the spec's testable property
`unflatten(flatten(O, D), D) == O` names the inverse. The first
dimension size is not needed to decompose (it only bounds the leading
digit), matching `ravel`, which never reads `dims[0]`. -/
def unflatten (n : ℕ) (dims : List ℕ) : Option (List ℕ) :=
  match dims with
  | [] => none
  | _ :: ds =>
      let p := unravelAux ds n
      some (p.1 :: p.2)

/-! ### The grid-world simulator (`wumpus_text.py`, class `Environment`) -/

/-- Configuration of the environment fixed at construction:
grid size (`--grid_size`, default 4) and topology (`--tore`). -/
structure EnvCfg where
  gridSize : ℤ
  tore : Bool

/-- Reward constant `DEFAULT_REWARD = -1.` of `Environment.__init__`. -/
def DEFAULT_REWARD : ℚ := -1

/-- Reward constant `KILL_REWARD = 5.` of `Environment.__init__`. -/
def KILL_REWARD : ℚ := 5

/-- Reward constant `TREASURE_REWARD = 100.` of `Environment.__init__`. -/
def TREASURE_REWARD : ℚ := 100

/-- Reward constant `HOLE_REWARD = -10.` of `Environment.__init__`. -/
def HOLE_REWARD : ℚ := -10

/-- Reward constant `WUMPUS_REWARD = -10.` of `Environment.__init__`. -/
def WUMPUS_REWARD : ℚ := -10

/-- The hole position `(1, 1)` of `Environment.__init__`. -/
def holePos : ℤ × ℤ := (1, 1)

/-- The treasure position `(grid_size-1, grid_size-1)`. -/
def treasurePos (cfg : EnvCfg) : ℤ × ℤ := (cfg.gridSize - 1, cfg.gridSize - 1)

/-- The wumpus position `[1, 2]` set by `Environment.reset`. -/
def initWumpusPos : ℤ × ℤ := (1, 2)

/-- Embeds `Environment.moveAgent(curr_pos, a)`: shift one cell in the
direction of a movement action, then either clamp to the grid (bounded
topology: `min(grid_size-1, ·)` followed by `max(0, ·)` on each
coordinate) or wrap around (tore topology: `grid_size ↦ 0`,
`-1 ↦ grid_size-1` on each coordinate). A flash action leaves
`next_pos` as the empty list, on which the subsequent indexing fails,
hence the `Option`. -/
def moveAgent (cfg : EnvCfg) (curr : ℤ × ℤ) (a : Action) : Option (ℤ × ℤ) :=
  let next? : Option (ℤ × ℤ) :=
    match a with
    | .UP => some (curr.1, curr.2 + 1)
    | .DOWN => some (curr.1, curr.2 - 1)
    | .LEFT => some (curr.1 - 1, curr.2)
    | .RIGHT => some (curr.1 + 1, curr.2)
    | _ => none
  next?.map (fun q =>
    if cfg.tore = false then
      (max 0 (min (cfg.gridSize - 1) q.1), max 0 (min (cfg.gridSize - 1) q.2))
    else
      (if q.1 = cfg.gridSize then 0
       else if q.1 = -1 then cfg.gridSize - 1 else q.1,
       if q.2 = cfg.gridSize then 0
       else if q.2 = -1 then cfg.gridSize - 1 else q.2))

/-- Embeds `Environment.flashAgent(s, a)` with `agent_pos = s[:2]` and
`n_flash = s[4]` already projected at the call site: if the agent has
shots left and the wumpus is alive (`wumpus_pos_[0] >= 0`) and stands
on the cell the flash points at, the wumpus dies (position becomes
`(-1, -1)`) and the call reports success. -/
def flashAgent (wumpus : ℤ × ℤ) (pos : ℤ × ℤ) (nflash : ℤ) (a : Action) :
    Bool × (ℤ × ℤ) :=
  if 0 < nflash ∧ 0 ≤ wumpus.1 then
    match a with
    | .FLASH_UP =>
        if wumpus.1 = pos.1 ∧ wumpus.2 = pos.2 + 1 then (true, (-1, -1))
        else (false, wumpus)
    | .FLASH_DOWN =>
        if wumpus.1 = pos.1 ∧ wumpus.2 = pos.2 - 1 then (true, (-1, -1))
        else (false, wumpus)
    | .FLASH_LEFT =>
        if wumpus.1 = pos.1 - 1 ∧ wumpus.2 = pos.2 then (true, (-1, -1))
        else (false, wumpus)
    | .FLASH_RIGHT =>
        if wumpus.1 = pos.1 + 1 ∧ wumpus.2 = pos.2 then (true, (-1, -1))
        else (false, wumpus)
    | _ => (false, wumpus)
  else (false, wumpus)

/-- Embeds `Environment.testForEnd(s)` with `agent_pos = s[:2]`
already projected: meeting the wumpus or the hole kills the agent,
reaching the treasure wins; each ends the episode with its reward. -/
def testForEnd (cfg : EnvCfg) (wumpus : ℤ × ℤ) (pos : ℤ × ℤ) : ℚ × Bool :=
  if wumpus.1 = pos.1 ∧ wumpus.2 = pos.2 then (WUMPUS_REWARD, true)
  else if (holePos).1 = pos.1 ∧ (holePos).2 = pos.2 then (HOLE_REWARD, true)
  else if (treasurePos cfg).1 = pos.1 ∧ (treasurePos cfg).2 = pos.2 then
    (TREASURE_REWARD, true)
  else (0, false)

/-- Embeds `Environment.updateSense(agent_pos)`: `[smell, breeze]`,
set when the wumpus resp. the hole is at L1 distance < 2. -/
def updateSense (wumpus : ℤ × ℤ) (pos : ℤ × ℤ) : List ℤ :=
  [if |wumpus.1 - pos.1| + |wumpus.2 - pos.2| < 2 then 1 else 0,
   if |(holePos).1 - pos.1| + |(holePos).2 - pos.2| < 2 then 1 else 0]

/-- Embeds `Environment.nextState()` (with the action `a` the agent
chose passed in, and the wumpus position as explicit state): one
simulator step, returning the new agent state
`next_agent_pos + sense + [n_flash]`, the reward
`DEFAULT_REWARD (+ KILL_REWARD on a successful flash) + end_reward`,
the terminal flag, and the wumpus position after the step. States are
the 5-element lists `[x, y, smell, breeze, n_flash]`; any other shape
fails (`s[4]` would raise). The `DYN_WUMPUS` branch (a random wumpus
move appended after the step) is outside this deterministic model;
every claim about the simulator runs it with `DYN_WUMPUS = False`,
the default. -/
def envNextState (cfg : EnvCfg) (wumpus : ℤ × ℤ) (s : List ℤ) (a : Action) :
    Option (List ℤ × ℚ × Bool × (ℤ × ℤ)) :=
  match s with
  | [x, y, _, _, nflash] =>
      if a.toId < 5 then
        (moveAgent cfg (x, y) a).map (fun p =>
          let sense := updateSense wumpus p
          let newState := [p.1, p.2] ++ sense ++ [nflash]
          let fin := testForEnd cfg wumpus p
          (newState, DEFAULT_REWARD + fin.1, fin.2, wumpus))
      else
        let flashed : ℚ × ℤ × (ℤ × ℤ) :=
          if 0 < nflash then
            let fr := flashAgent wumpus (x, y) nflash a
            (DEFAULT_REWARD + (if fr.1 then KILL_REWARD else 0), nflash - 1, fr.2)
          else (DEFAULT_REWARD, nflash, wumpus)
        let sense := updateSense flashed.2.2 (x, y)
        let newState := [x, y] ++ sense ++ [flashed.2.1]
        let fin := testForEnd cfg flashed.2.2 (x, y)
        some (newState, flashed.1 + fin.1, fin.2, flashed.2.2)
  | _ => none

/-- Embeds the rescaling of `UCB.nextState`:
`scaled_reward = (float(reward) + 1) / 101`. -/
def scaledReward (reward : ℚ) : ℚ := (reward + 1) / 101

/-! ### The tabular value store and the epsilon-greedy agent (`tp4.py`) -/

/-- The two parallel per-(state, action) arrays of the learning agents:
`cum_rewards` (`q[s, a]`) and `n_visits`, embedded as functions of the
state id and the zero-based action index. -/
structure VTable where
  cum : ℕ → ℕ → ℚ
  visits : ℕ → ℕ → ℚ

/-- The table `EpsilonGreedy.__init__` builds:
`cum_rewards = np.zeros(...)`, `n_visits = 1. * np.ones_like(...)`. -/
def egInitTable : VTable where
  cum := fun _ _ => 0
  visits := fun _ _ => 1

/-- The table update of `EpsilonGreedy.nextState` (lines
`self.cum_rewards[state_id, a] += reward` and
`self.n_visits[state_id, a] += 1.`): one cell of each array changes. -/
def qUpdate (t : VTable) (s a : ℕ) (r : ℚ) : VTable where
  cum := fun s' a' => if s' = s ∧ a' = a then t.cum s' a' + r else t.cum s' a'
  visits := fun s' a' => if s' = s ∧ a' = a then t.visits s' a' + 1 else t.visits s' a'

/-- The mean value `q_s = cum_rewards[state_id] / n_visits[state_id]`
read by the greedy, softmax and UCB rules, at one action. -/
def meanValue (t : VTable) (s a : ℕ) : ℚ := t.cum s a / t.visits s a

/-- The mutable fields of an `EpsilonGreedy` agent (and of its
`Softmax`/`UCB` subclasses, which share `reset`/`getAction`/
`nextState`): the value table, the first-visit flag, the held
observation `state_`, the 1-based ids `current_action` and
`last_action`, and the state encoding (`encoding.get_state_id` reads
only `state_` and `last_action`, embedded as a function of the two). -/
structure EGAgent where
  table : VTable
  firstVisit : Bool
  state : List ℕ
  currentAction : ℕ
  lastAction : ℕ
  encode : List ℕ → ℕ → ℕ

/-- Embeds `EpsilonGreedy.reset`: mark the first visit and re-seed
`current_action` with a randomly drawn action (the draw `seed` is
passed in); the table is not touched. -/
def egReset (ag : EGAgent) (seed : ℕ) : EGAgent :=
  { ag with firstVisit := true, currentAction := seed }

/-- Embeds `EpsilonGreedy.getAction`: memorize the action the strategy
rule produced (the randomized rule's output `chosen` is passed in) in
`current_action` and return it. -/
def egGetAction (ag : EGAgent) (chosen : ℕ) : EGAgent × ℕ :=
  ({ ag with currentAction := chosen }, chosen)

/-- Embeds `EpsilonGreedy.nextState(s, reward)`: unless this is the
first visit of the episode, update the table at the id of the held
(pre-call) observation and at `current_action - 1`; then store the new
observation and move `current_action` into `last_action`. -/
def egNextState (ag : EGAgent) (s : List ℕ) (reward : ℚ) : EGAgent :=
  let ag' :=
    if ag.firstVisit = true then
      { ag with firstVisit := false }
    else
      { ag with table := qUpdate ag.table (ag.encode ag.state ag.lastAction)
                  (ag.currentAction - 1) reward }
  { ag' with state := s, lastAction := ag'.currentAction }

/-! ### The uniform random action draw (`Agent.getAction`) -/

/-- Support of `np.random.randint(low, high)`: the integers drawn
uniformly, `{low, ..., high - 1}` — the upper bound is exclusive. -/
def randintSupport (lo hi : ℕ) : List ℕ :=
  (List.range (hi - lo)).map (fun k => k + lo)

/-- Embeds `Agent.getAction` of `wumpus_text.py`:
`Action(np.random.randint(1, len(Action)))` — the support of the
"uniformly random action" draw, also used by `EpsilonGreedy.reset`
(the episode seed action) and by the `epsilon` branch of
`EpsilonGreedy.getActionReal`. -/
def agentGetActionSupport : List ℕ := randintSupport 1 actionCount

/-- Probability of drawing `x` from a uniform draw over `support`. -/
def uniformProb (support : List ℕ) (x : ℕ) : ℚ :=
  (support.count x : ℚ) / (support.length : ℚ)

/-! ### The UCB selector and numpy float semantics (`UCB.getActionReal`) -/

/-- Model of the numpy float values that flow through the UCB score
computation: a finite value, a signed infinity, or not-a-number. (The
finite values are modelled as exact reals; rounding and overflow play
no role in the claims.) -/
inductive NF where
  | nan
  | posinf
  | neginf
  | val (x : ℝ)

/-- The nan test on a modelled float. -/
def NF.isNan : NF → Bool
  | nan => true
  | _ => false

open scoped Classical in
/-- IEEE division of two finite floats, as numpy performs it in
`q_s = cum_rewards[state_id] / n_visits[state_id]`: `0.0/0.0` is nan
(numpy emits a RuntimeWarning and carries on), a nonzero numerator
over zero is a signed infinity, the quotient otherwise. -/
noncomputable def floatDiv (a b : ℝ) : NF :=
  if b = 0 then
    (if a = 0 then NF.nan else if 0 < a then NF.posinf else NF.neginf)
  else NF.val (a / b)

/-- IEEE addition of a (possibly non-finite) float and a finite float,
as in `scores = q_s + lbda * np.sqrt(...)`: nan propagates, an
infinity absorbs the finite summand. -/
def nfAddVal : NF → ℝ → NF
  | NF.nan, _ => NF.nan
  | NF.posinf, _ => NF.posinf
  | NF.neginf, _ => NF.neginf
  | NF.val a, b => NF.val (a + b)

/-- Embeds the score computation of `UCB.getActionReal` on one state
row: `q_s + lbda * np.sqrt(2 * np.log(1 + n_visits.sum()) /
(1 + n_visits))`. The exploration bonus is a finite float for the
visit counts the table ever holds (they are nonnegative, so the
argument of the square root is a well-defined nonnegative real), so it
is modelled directly in `ℝ`; the division `q_s`, which can be
`0.0/0.0`, is modelled by `floatDiv`. -/
noncomputable def ucbScores (cum visits : List ℝ) (lbda : ℝ) : List NF :=
  (cum.zip visits).map (fun p =>
    nfAddVal (floatDiv p.1 p.2)
      (lbda * Real.sqrt (2 * Real.log (1 + visits.sum) / (1 + p.2))))

open scoped Classical in
/-- IEEE `>` on modelled floats: every comparison involving nan is
false. -/
noncomputable def nfGt : NF → NF → Bool
  | NF.nan, _ => false
  | _, NF.nan => false
  | NF.posinf, NF.posinf => false
  | NF.posinf, _ => true
  | NF.neginf, _ => false
  | NF.val _, NF.posinf => false
  | NF.val _, NF.neginf => true
  | NF.val a, NF.val b => decide (b < a)

/-- The scan loop of numpy's float argmax kernel: keep the running
maximum and its first index, with the extra clause
`*ip > mp || npy_isnan(*ip)` and an immediate stop at the first nan —
numpy documents that nan is treated as maximal and the index of the
first nan is returned. `i` is the index of the head of `xs`, `m` the
running maximum, `best` its index. -/
noncomputable def nanArgmaxAux : List NF → ℕ → NF → ℕ → ℕ
  | [], _, _, best => best
  | x :: rest, i, m, best =>
      if nfGt x m || x.isNan then
        (if x.isNan then i else nanArgmaxAux rest (i + 1) x i)
      else nanArgmaxAux rest (i + 1) m best

/-- Embeds `np.argmax` on a float vector (numpy semantics: first
maximal element; nan maximal, first nan returned). `np.argmax` of an
empty vector raises; the empty case never occurs here and returns 0. -/
noncomputable def nanArgmax : List NF → ℕ
  | [] => 0
  | x :: rest => if x.isNan then 0 else nanArgmaxAux rest 1 x 0

/-! ### The softmax selector (`softmax`, `Softmax.getActionReal`) -/

/-- Embeds `u.max()` on a numpy vector (the maximum of the entries;
raises on an empty vector — the junk value 0 below is never reached,
every use is on an 8-entry row). -/
noncomputable def listMax : List ℝ → ℝ
  | [] => 0
  | x :: xs => xs.foldl max x

/-- Embeds `softmax(u)` of `tp4.py`:
`v = np.exp(u - u.max()); return v / v.sum()`. -/
noncomputable def softmax (u : List ℝ) : List ℝ :=
  (u.map (fun x => Real.exp (x - listMax u))).map
    (fun x => x / (u.map (fun y => Real.exp (y - listMax u))).sum)

/-- The row `q_s = cum_rewards[state_id] / n_visits[state_id]` of the
`Softmax` agent's table, over the eight zero-based action indices,
cast to the reals the numpy computation lives in. -/
noncomputable def meanRow (t : VTable) (sid : ℕ) : List ℝ :=
  (List.range actionCount).map (fun a => ((meanValue t sid a : ℚ) : ℝ))

/-- Embeds the distribution built by `Softmax.getActionReal`:
`dist = softmax(q_s / self.temperature)`; the returned action is one
draw from this categorical distribution
(`scipy.stats.rv_discrete(values=(range(len(Action)), dist))`). -/
noncomputable def softmaxDist (t : VTable) (sid : ℕ) (temperature : ℝ) : List ℝ :=
  softmax ((meanRow t sid).map (fun x => x / temperature))

/-! ### Theorems -/

lemma ravel_eq_foldl (c : ℕ) (cs dims : List ℕ) :
    ravel (c :: cs) dims = some ((cs.zip dims.tail).foldl ravelStep c) := by
  rfl

lemma getD_of_drop_eq_cons {l : List ℕ} {i o : ℕ} {os : List ℕ}
    (h : l.drop i = o :: os) : l.getD i 0 = o := by
  have h0 : (l.drop i).get? 0 = some o := by rw [h]; rfl
  rw [List.get?_eq_getElem?, List.getElem?_drop, Nat.add_zero] at h0
  show (l.get? i).getD 0 = o
  rw [List.get?_eq_getElem?, h0]
  rfl

lemma specLoop_eq_foldl_zip (O D : List ℕ) (hlen : O.length = D.length) :
    ∀ (os ds : List ℕ) (i a : ℕ), O.drop i = os → D.drop i = ds →
      specLoop O D a i = (os.zip ds).foldl ravelStep a := by
  intro os
  induction os with
  | nil =>
      intro ds i a hO _
      have hle : O.length ≤ i := by
        by_contra hlt
        push_neg at hlt
        have := List.drop_eq_nil_iff.mp hO
        omega
      rw [specLoop]
      simp [Nat.not_lt.mpr hle]
  | cons o os ih =>
      intro ds i a hO hD
      have hiO : i < O.length := by
        by_contra hge
        push_neg at hge
        rw [List.drop_eq_nil_iff.mpr hge] at hO
        exact List.noConfusion hO
      have hiD : i < D.length := hlen ▸ hiO
      obtain ⟨d, ds', hds⟩ : ∃ d ds', ds = d :: ds' := by
        have : ds.length = D.length - i := by rw [← hD, List.length_drop]
        cases ds with
        | nil => exfalso; simp at this; omega
        | cons d ds' => exact ⟨d, ds', rfl⟩
      subst hds
      have hOget : O.getD i 0 = o := getD_of_drop_eq_cons hO
      have hDget : D.getD i 0 = d := getD_of_drop_eq_cons hD
      have hOdrop : O.drop (i + 1) = os := by
        have := List.drop_drop 1 i O
        rw [hO] at this
        simpa [Nat.add_comm] using this.symm
      have hDdrop : D.drop (i + 1) = ds' := by
        have := List.drop_drop 1 i D
        rw [hD] at this
        simpa [Nat.add_comm] using this.symm
      rw [specLoop]
      simp only [hiO, if_true, hOget, hDget]
      rw [ih ds' (i + 1) (a * d + o) hOdrop hDdrop]
      rfl

/-- Claim C1: for every dimension list `D` and observation tuple `O` of
the same length, `ravel` returns exactly the index of the spec's
recurrence `index = O[0]; for i in 1..k-1: index = index*d_i + O[i]`
(row-major, last dimension fastest); in particular on `D = [2,3]` it
maps `[0,0] ↦ 0`, `[0,1] ↦ 1`, `[0,2] ↦ 2` and `[1,0] ↦ 3`. -/
theorem ravel_is_row_major :
    (∀ O D : List ℕ, O.length = D.length → ravel O D = specFlatten O D) ∧
    ravel [0, 0] [2, 3] = some 0 ∧
    ravel [0, 1] [2, 3] = some 1 ∧
    ravel [0, 2] [2, 3] = some 2 ∧
    ravel [1, 0] [2, 3] = some 3 := by
  refine ⟨?_, by decide, by decide, by decide, by decide⟩
  intro O D hlen
  cases O with
  | nil => cases D with
    | nil => rfl
    | cons d ds => simp at hlen
  | cons o os =>
      rw [ravel_eq_foldl, specFlatten]
      have hD : D.drop 1 = D.tail := List.drop_one D
      rw [specLoop_eq_foldl_zip (o :: os) D hlen os D.tail 1 o rfl hD]

/-- Witness for `ravel_is_row_major` at the concrete input
`O = [1, 2]`, `D = [2, 3]`. -/
theorem ravel_is_row_major_witness :
    ravel [1, 2] [2, 3] = specFlatten [1, 2] [2, 3] :=
  ravel_is_row_major.1 [1, 2] [2, 3] (by decide)

lemma unravelAux_foldl (cs ds : List ℕ) (hr : List.Forall₂ (· < ·) cs ds) :
    ∀ c : ℕ, unravelAux ds ((cs.zip ds).foldl ravelStep c) = (c, cs) := by
  induction hr with
  | nil => intro c; rfl
  | @cons x d cs' ds' hxd _ ih =>
      intro c
      show unravelAux (d :: ds') (((x, d) :: cs'.zip ds').foldl ravelStep c) = (c, x :: cs')
      rw [List.foldl_cons]
      show (let p := unravelAux ds' ((cs'.zip ds').foldl ravelStep (ravelStep c (x, d)));
            (p.1 / d, p.1 % d :: p.2)) = (c, x :: cs')
      rw [ih (ravelStep c (x, d))]
      show ((c * d + x) / d, (c * d + x) % d :: cs') = (c, x :: cs')
      have hdiv : (c * d + x) / d = c := by
        rw [Nat.mul_comm c d, Nat.mul_add_div (Nat.lt_of_le_of_lt (Nat.zero_le x) hxd)]
        simp [Nat.div_eq_of_lt hxd]
      have hmod : (c * d + x) % d = x := by
        rw [Nat.mul_comm c d, Nat.mul_add_mod]
        exact Nat.mod_eq_of_lt hxd
      rw [hdiv, hmod]

lemma ravel_foldl_lt (cs ds : List ℕ) (hr : List.Forall₂ (· < ·) cs ds) :
    ∀ c B : ℕ, c < B → (cs.zip ds).foldl ravelStep c < B * ds.prod := by
  induction hr with
  | nil => intro c B hc; simpa using hc
  | @cons x d cs' ds' hxd _ ih =>
      intro c B hc
      show ((x, d) :: cs'.zip ds').foldl ravelStep c < B * (d :: ds').prod
      rw [List.foldl_cons]
      have hstep : ravelStep c (x, d) < B * d := by
        show c * d + x < B * d
        calc c * d + x < c * d + d := by omega
          _ = (c + 1) * d := by ring
          _ ≤ B * d := Nat.mul_le_mul_right d hc
      have := ih (ravelStep c (x, d)) (B * d) hstep
      calc (cs'.zip ds').foldl ravelStep (ravelStep c (x, d))
          < B * d * ds'.prod := this
        _ = B * (d :: ds').prod := by rw [List.prod_cons]; ring

lemma unravelAux_spec (ds : List ℕ) (hpos : ∀ d ∈ ds, 0 < d) (n : ℕ) :
    ((unravelAux ds n).2.zip ds).foldl ravelStep (unravelAux ds n).1 = n ∧
    List.Forall₂ (· < ·) (unravelAux ds n).2 ds ∧
    (unravelAux ds n).1 = n / ds.prod := by
  induction ds with
  | nil => exact ⟨rfl, List.Forall₂.nil, by simp [unravelAux]⟩
  | cons d ds' ih =>
      have hd : 0 < d := hpos d (List.mem_cons_self d ds')
      have hpos' : ∀ x ∈ ds', 0 < x := fun x hx => hpos x (List.mem_cons_of_mem d hx)
      obtain ⟨ihfold, ihrange, ihdiv⟩ := ih hpos'
      set q := (unravelAux ds' n).1 with hq
      set digits := (unravelAux ds' n).2 with hdigits
      have hstep : unravelAux (d :: ds') n = (q / d, q % d :: digits) := rfl
      refine ⟨?_, ?_, ?_⟩
      · rw [hstep]
        show ((q % d :: digits).zip (d :: ds')).foldl ravelStep (q / d) = n
        rw [List.zip_cons_cons, List.foldl_cons]
        have : ravelStep (q / d) (q % d, d) = q := by
          show q / d * d + q % d = q
          rw [Nat.mul_comm]
          exact Nat.div_add_mod q d
        rw [this]
        exact ihfold
      · rw [hstep]
        exact List.Forall₂.cons (Nat.mod_lt q hd) ihrange
      · rw [hstep]
        show q / d = n / (d :: ds').prod
        rw [ihdiv, List.prod_cons, Nat.div_div_eq_div_mul, Nat.mul_comm d ds'.prod]

/-- Claim C2: `ravel` is a bijection between the in-range tuples and
`[0, ∏ dᵢ)`: every in-range tuple flattens below the total size and
unflattening recovers it (round-trip), and conversely every index
below the total size unflattens to an in-range tuple that flattens
back to it. -/
theorem ravel_bijection :
    (∀ O D : List ℕ, O ≠ [] → List.Forall₂ (· < ·) O D →
      ∃ n, ravel O D = some n ∧ n < D.prod ∧ unflatten n D = some O) ∧
    (∀ D : List ℕ, ∀ n : ℕ, D ≠ [] → (∀ d ∈ D, 0 < d) → n < D.prod →
      ∃ O, unflatten n D = some O ∧ List.Forall₂ (· < ·) O D ∧
        ravel O D = some n) := by
  constructor
  · intro O D hne hr
    cases hr with
    | nil => exact absurd rfl hne
    | @cons c d0 cs ds hcd hr' =>
        refine ⟨(cs.zip ds).foldl ravelStep c, ?_, ?_, ?_⟩
        · rw [ravel_eq_foldl]; rfl
        · rw [List.prod_cons]
          exact ravel_foldl_lt cs ds hr' c d0 hcd
        · show unflatten ((cs.zip ds).foldl ravelStep c) (d0 :: ds) = some (c :: cs)
          rw [unflatten]
          rw [unravelAux_foldl cs ds hr' c]
  · intro D n hne hpos hlt
    cases D with
    | nil => exact absurd rfl hne
    | cons d0 ds =>
        have hpos' : ∀ d ∈ ds, 0 < d := fun d hd => hpos d (List.mem_cons_of_mem d0 hd)
        obtain ⟨hfold, hrange, hdiv⟩ := unravelAux_spec ds hpos' n
        have hprodpos : 0 < ds.prod := List.prod_pos hpos'
        have hlead : (unravelAux ds n).1 < d0 := by
          rw [hdiv]
          rw [List.prod_cons] at hlt
          exact Nat.div_lt_of_lt_mul (by rwa [Nat.mul_comm] at hlt)
        refine ⟨(unravelAux ds n).1 :: (unravelAux ds n).2, rfl,
          List.Forall₂.cons hlead hrange, ?_⟩
        rw [ravel_eq_foldl]
        show some (((unravelAux ds n).2.zip ds).foldl ravelStep (unravelAux ds n).1) = some n
        rw [hfold]

/-- Witness for `ravel_bijection` at `O = [1, 2]`, `D = [2, 3]` and at
`n = 5`, `D = [2, 3]`. -/
theorem ravel_bijection_witness :
    (∃ n, ravel [1, 2] [2, 3] = some n ∧ n < ([2, 3] : List ℕ).prod ∧
      unflatten n [2, 3] = some [1, 2]) ∧
    (∃ O, unflatten 5 [2, 3] = some O ∧ List.Forall₂ (· < ·) O [2, 3] ∧
      ravel O [2, 3] = some 5) :=
  ⟨ravel_bijection.1 [1, 2] [2, 3] (by decide)
      (List.Forall₂.cons (by decide) (List.Forall₂.cons (by decide) List.Forall₂.nil)),
   ravel_bijection.2 [2, 3] 5 (by decide) (by decide) (by decide)⟩

/-- Claim C5, evaluated at the failing input: from state
`[1, 0, 0, 1, 5]` the action UP steps into the hole at `(1, 1)`, the
simulator returns total reward `-1 + (-10) = -11`, and the UCB
rescaling maps it to `-10/101`, which is negative — the scaled reward
does not lie in `[0, 1]` for the hole (and likewise wumpus) outcome,
contrary to the claim and to the code comment `reward must be between
0 and 1 for UCB`. The in-range rewards `-1`, `4` and `99` do scale
into `[0, 1]`. -/
theorem scaledReward_leaves_unit_interval :
    envNextState ⟨4, true⟩ initWumpusPos [1, 0, 0, 1, 5] Action.UP =
      some ([1, 1, 1, 1, 5], -11, true, (1, 2)) ∧
    scaledReward (-11) = -10 / 101 ∧
    scaledReward (-11) < 0 ∧
    scaledReward (-1) = 0 ∧ scaledReward 4 = 5 / 101 ∧
    scaledReward 99 = 100 / 101 := by
  refine ⟨?_, ?_, ?_, ?_, ?_, ?_⟩ <;>
    norm_num [envNextState, moveAgent, updateSense, testForEnd, flashAgent,
      Action.toId, DEFAULT_REWARD, KILL_REWARD, TREASURE_REWARD, HOLE_REWARD,
      WUMPUS_REWARD, initWumpusPos, holePos, treasurePos, scaledReward]

/-- Claim C9, evaluated: on the 4×4 toroidal grid with the wumpus at
`(1, 2)`, the step from `[0, 0, 0, 0, 5]` with RIGHT yields the state
`[1, 0, 0, 1, 5]` — the breeze flag is set because the hole at
`(1, 1)` is adjacent to the new position `(1, 0)` — and not the state
`[1, 0, 0, 0, 5]` the claim asserts. -/
theorem first_step_right_cex :
    (envNextState ⟨4, true⟩ initWumpusPos [0, 0, 0, 0, 5]
        Action.RIGHT).map (fun r => r.1) = some [1, 0, 0, 1, 5] ∧
    some [1, 0, 0, 1, 5] ≠ some ([1, 0, 0, 0, 5] : List ℤ) := by
  refine ⟨?_, by decide⟩
  norm_num [envNextState, moveAgent, updateSense, testForEnd,
    Action.toId, initWumpusPos, holePos, treasurePos]

/-- Claim C9 as amended: on the 4×4 toroidal grid with the static
wumpus at `(1, 2)`, taking RIGHT in state `[0, 0, 0, 0, 5]` returns
reward `-1`, terminal flag `false`, and next state `[1, 0, 0, 1, 5]`
(breeze set by the adjacent hole). -/
theorem first_step_right :
    envNextState ⟨4, true⟩ initWumpusPos [0, 0, 0, 0, 5] Action.RIGHT =
      some ([1, 0, 0, 1, 5], -1, false, (1, 2)) := by
  norm_num [envNextState, moveAgent, updateSense, testForEnd,
    Action.toId, DEFAULT_REWARD, initWumpusPos, holePos, treasurePos]

/-- Claim C10: for any in-grid position and any movement action,
`moveAgent` returns a position that is again in-grid, in both the
toroidal and the bounded topology. -/
theorem moveAgent_stays_in_grid (cfg : EnvCfg) (x y : ℤ) (a : Action)
    (hg : 1 ≤ cfg.gridSize) (hx0 : 0 ≤ x) (hxg : x < cfg.gridSize)
    (hy0 : 0 ≤ y) (hyg : y < cfg.gridSize) (ha : a.toId < 5) :
    ∃ p, moveAgent cfg (x, y) a = some p ∧
      0 ≤ p.1 ∧ p.1 < cfg.gridSize ∧ 0 ≤ p.2 ∧ p.2 < cfg.gridSize := by
  cases a with
  | FLASH_UP => simp [Action.toId] at ha
  | FLASH_DOWN => simp [Action.toId] at ha
  | FLASH_LEFT => simp [Action.toId] at ha
  | FLASH_RIGHT => simp [Action.toId] at ha
  | UP =>
      refine ⟨_, rfl, ?_⟩
      cases htore : cfg.tore <;>
        simp only [Bool.false_eq_true, if_true, if_false, min_def, max_def] <;>
        split_ifs <;> omega
  | DOWN =>
      refine ⟨_, rfl, ?_⟩
      cases htore : cfg.tore <;>
        simp only [Bool.false_eq_true, if_true, if_false, min_def, max_def] <;>
        split_ifs <;> omega
  | LEFT =>
      refine ⟨_, rfl, ?_⟩
      cases htore : cfg.tore <;>
        simp only [Bool.false_eq_true, if_true, if_false, min_def, max_def] <;>
        split_ifs <;> omega
  | RIGHT =>
      refine ⟨_, rfl, ?_⟩
      cases htore : cfg.tore <;>
        simp only [Bool.false_eq_true, if_true, if_false, min_def, max_def] <;>
        split_ifs <;> omega

/-- Witness for `moveAgent_stays_in_grid`: moving RIGHT from `(3, 0)`
on the 4×4 toroidal grid stays in-grid (it wraps to `(0, 0)`). -/
theorem moveAgent_stays_in_grid_witness :
    ∃ p, moveAgent ⟨4, true⟩ (3, 0) Action.RIGHT = some p ∧
      0 ≤ p.1 ∧ p.1 < (4 : ℤ) ∧ 0 ≤ p.2 ∧ p.2 < (4 : ℤ) :=
  moveAgent_stays_in_grid ⟨4, true⟩ 3 0 Action.RIGHT (by decide) (by decide)
    (by decide) (by decide) (by decide) (by decide)

/-- Claim C6: from the fresh epsilon-greedy table (visit counts
initialized to 1), a single update at `(s, a)` with reward `r` adds
`r` to the cumulative reward, increments the visit count by exactly 1,
leaves every other cell unchanged, and afterwards the mean value at
`(s, a)` is `r / (1 + 1)`. -/
theorem single_update_mean (s a : ℕ) (r : ℚ) :
    (qUpdate egInitTable s a r).cum s a = egInitTable.cum s a + r ∧
    (qUpdate egInitTable s a r).visits s a = egInitTable.visits s a + 1 ∧
    (∀ s' a', ¬(s' = s ∧ a' = a) →
      (qUpdate egInitTable s a r).cum s' a' = egInitTable.cum s' a' ∧
      (qUpdate egInitTable s a r).visits s' a' = egInitTable.visits s' a') ∧
    meanValue (qUpdate egInitTable s a r) s a = r / (1 + 1) := by
  refine ⟨by simp [qUpdate], by simp [qUpdate], ?_, ?_⟩
  · intro s' a' h
    constructor <;> simp [qUpdate, h]
  · simp [meanValue, qUpdate, egInitTable]

/-- Witness for `single_update_mean` at `s = 0`, `a = 1`, `r = 3`: the
off-cell `(2, 2)` is untouched and the updated mean is `3 / (1 + 1)`. -/
theorem single_update_mean_witness :
    (qUpdate egInitTable 0 1 3).cum 2 2 = egInitTable.cum 2 2 ∧
    meanValue (qUpdate egInitTable 0 1 3) 0 1 = 3 / (1 + 1) :=
  ⟨((single_update_mean 0 1 3).2.2.1 2 2 (by decide)).1,
   (single_update_mean 0 1 3).2.2.2⟩

/-- Claim C7: an episode reset never clears the table; the first
`nextState` after a reset leaves both arrays completely unchanged (and
clears the first-visit flag); on every later `nextState` call exactly
the cell at (encoding of the pre-call observation, most recently
returned action) changes, every other cell keeping its value. -/
theorem table_update_discipline (ag : EGAgent) (seed : ℕ) (s : List ℕ) (r : ℚ) :
    ((egReset ag seed).table = ag.table) ∧
    ((egNextState (egReset ag seed) s r).table = ag.table) ∧
    ((egNextState (egReset ag seed) s r).firstVisit = false) ∧
    (ag.firstVisit = false →
      (egNextState ag s r).table.cum (ag.encode ag.state ag.lastAction)
          (ag.currentAction - 1) =
        ag.table.cum (ag.encode ag.state ag.lastAction) (ag.currentAction - 1) + r ∧
      (egNextState ag s r).table.visits (ag.encode ag.state ag.lastAction)
          (ag.currentAction - 1) =
        ag.table.visits (ag.encode ag.state ag.lastAction) (ag.currentAction - 1) + 1 ∧
      ∀ s' a', ¬(s' = ag.encode ag.state ag.lastAction ∧ a' = ag.currentAction - 1) →
        (egNextState ag s r).table.cum s' a' = ag.table.cum s' a' ∧
        (egNextState ag s r).table.visits s' a' = ag.table.visits s' a') := by
  refine ⟨rfl, by simp [egNextState, egReset], by simp [egNextState, egReset], ?_⟩
  intro hfv
  refine ⟨by simp [egNextState, hfv, qUpdate], by simp [egNextState, hfv, qUpdate], ?_⟩
  intro s' a' h
  constructor <;> simp [egNextState, hfv, qUpdate, h]

/-- Witness for `table_update_discipline` at a concrete agent past its
first visit: the updated cell gains the reward and one visit, the cell
`(9, 9)` is untouched. -/
theorem table_update_discipline_witness :
    ((egNextState ⟨egInitTable, false, [0, 1], 3, 2, fun _ _ => 4⟩ [1, 1] 7).table.cum 4 2 =
      (egInitTable.cum 4 2) + 7) ∧
    ((egNextState ⟨egInitTable, false, [0, 1], 3, 2, fun _ _ => 4⟩ [1, 1] 7).table.cum 9 9 =
      egInitTable.cum 9 9) :=
  ⟨((table_update_discipline ⟨egInitTable, false, [0, 1], 3, 2, fun _ _ => 4⟩ 0 [1, 1] 7).2.2.2
      rfl).1,
   (((table_update_discipline ⟨egInitTable, false, [0, 1], 3, 2, fun _ _ => 4⟩ 0 [1, 1] 7).2.2.2
      rfl).2.2 9 9 (by decide)).1⟩

/-- Claim C3, evaluated at the failing input: the random draw
`np.random.randint(1, len(Action))` excludes its upper bound, so its
support is `{1, ..., 7}` — action id 8, FLASH_RIGHT, is drawn with
probability 0, and each other action with probability `1/7`, not
`1/8`: the distribution is not uniform over all 8 actions. -/
theorem random_action_misses_flash_right :
    agentGetActionSupport = [1, 2, 3, 4, 5, 6, 7] ∧
    Action.FLASH_RIGHT.toId = 8 ∧
    uniformProb agentGetActionSupport Action.FLASH_RIGHT.toId = 0 ∧
    uniformProb agentGetActionSupport Action.UP.toId = 1 / 7 := by
  refine ⟨by decide, by decide, ?_, ?_⟩ <;>
    norm_num [uniformProb, agentGetActionSupport, randintSupport, actionCount,
      Action.toId, List.count_cons, List.range_succ]

lemma isNan_score (c v b : ℝ) :
    (nfAddVal (floatDiv c v) b).isNan = true ↔ (v = 0 ∧ c = 0) := by
  unfold floatDiv
  by_cases hv : v = 0
  · by_cases hc : c = 0
    · simp [hv, hc, nfAddVal, NF.isNan]
    · by_cases hcp : 0 < c <;> simp [hv, hc, hcp, nfAddVal, NF.isNan]
  · simp [hv, nfAddVal, NF.isNan]

lemma nanArgmaxAux_spec :
    ∀ (xs : List NF) (i : ℕ) (m : NF) (best : ℕ), m.isNan = false →
      (∃ x ∈ xs, x.isNan = true) →
      ∃ (k : ℕ) (hk : k < xs.length), nanArgmaxAux xs i m best = i + k ∧
        (xs.get ⟨k, hk⟩).isNan = true ∧
        ∀ j (hj : j < k), (xs.get ⟨j, by omega⟩).isNan = false := by
  intro xs
  induction xs with
  | nil => intro i m best _ hex; simp at hex
  | cons x rest ih =>
      intro i m best hm hex
      by_cases hx : x.isNan = true
      · refine ⟨0, by simp, ?_, by simpa using hx, fun j hj => by omega⟩
        simp [nanArgmaxAux, hx]
      · have hx' : x.isNan = false := by simpa using hx
        have hex' : ∃ y ∈ rest, y.isNan = true := by
          obtain ⟨y, hy, hyn⟩ := hex
          rcases List.mem_cons.mp hy with h | h
          · exact absurd (h ▸ hyn) hx
          · exact ⟨y, h, hyn⟩
        by_cases hgt : nfGt x m = true
        · obtain ⟨k, hk, heq, hnan, hbefore⟩ := ih (i + 1) x i hx' hex'
          refine ⟨k + 1, by simpa using hk, ?_, ?_, ?_⟩
          · have hstep : nanArgmaxAux (x :: rest) i m best =
                nanArgmaxAux rest (i + 1) x i := by
              simp [nanArgmaxAux, hgt, hx']
            rw [hstep, heq]
            omega
          · simpa using hnan
          · intro j hj
            cases j with
            | zero => simpa using hx'
            | succ j' => simpa using hbefore j' (by omega)
        · have hgt' : nfGt x m = false := by simpa using hgt
          obtain ⟨k, hk, heq, hnan, hbefore⟩ := ih (i + 1) m best hm hex'
          refine ⟨k + 1, by simpa using hk, ?_, ?_, ?_⟩
          · have hstep : nanArgmaxAux (x :: rest) i m best =
                nanArgmaxAux rest (i + 1) m best := by
              simp [nanArgmaxAux, hgt', hx']
            rw [hstep, heq]
            omega
          · simpa using hnan
          · intro j hj
            cases j with
            | zero => simpa using hx'
            | succ j' => simpa using hbefore j' (by omega)

lemma nanArgmax_first_nan (l : List NF) (hex : ∃ x ∈ l, x.isNan = true) :
    ∃ (k : ℕ) (hk : k < l.length), nanArgmax l = k ∧
      (l.get ⟨k, hk⟩).isNan = true ∧
      ∀ j (hj : j < k), (l.get ⟨j, by omega⟩).isNan = false := by
  cases l with
  | nil => simp at hex
  | cons x rest =>
      by_cases hx : x.isNan = true
      · exact ⟨0, by simp, by simp [nanArgmax, hx], by simpa using hx,
          fun j hj => by omega⟩
      · have hx' : x.isNan = false := by simpa using hx
        have hex' : ∃ y ∈ rest, y.isNan = true := by
          obtain ⟨y, hy, hyn⟩ := hex
          rcases List.mem_cons.mp hy with h | h
          · exact absurd (h ▸ hyn) hx
          · exact ⟨y, h, hyn⟩
        obtain ⟨k, hk, heq, hnan, hbefore⟩ := nanArgmaxAux_spec rest 1 x 0 hx' hex'
        refine ⟨k + 1, by simpa using hk, ?_, by simpa using hnan, ?_⟩
        · have hstep : nanArgmax (x :: rest) = nanArgmaxAux rest 1 x 0 := by
            simp [nanArgmax, hx']
          rw [hstep, heq]
          omega
        · intro j hj
          cases j with
          | zero => simpa using hx'
          | succ j' => simpa using hbefore j' (by omega)

lemma ucbScores_length (cum visits : List ℝ) (lbda : ℝ)
    (h : cum.length = visits.length) :
    (ucbScores cum visits lbda).length = visits.length := by
  simp [ucbScores, h]

lemma ucbScores_getD (cum visits : List ℝ) (lbda : ℝ) (i : ℕ)
    (h1 : i < cum.length) (h2 : i < visits.length) :
    (ucbScores cum visits lbda).getD i NF.nan =
      nfAddVal (floatDiv (cum.getD i 0) (visits.getD i 0))
        (lbda * Real.sqrt (2 * Real.log (1 + visits.sum) /
          (1 + visits.getD i 0))) := by
  have hz : i < (cum.zip visits).length := by
    rw [List.length_zip]
    omega
  have hs : i < (ucbScores cum visits lbda).length := by
    simpa [ucbScores] using hz
  rw [List.getD_eq_getElem _ _ hs, List.getD_eq_getElem _ _ h1,
    List.getD_eq_getElem _ _ h2]
  simp only [ucbScores, List.getElem_map, List.getElem_zip]

/-- Claim C4, evaluated at the failing input: on the fresh UCB table
(`cum_rewards = np.zeros(...)`, `n_visits = 0 * np.ones_like(...)`),
every action of a state row has visit count 0, the division `0.0/0.0`
yields nan, and all eight UCB scores are nan — nan does reach the
argmax (its input contains nan), the score of a zero-visit action is
not a value exceeding anything; numpy's argmax then returns index 0
(action UP). -/
theorem ucb_fresh_scores_all_nan :
    ucbScores [0, 0, 0, 0, 0, 0, 0, 0] [0, 0, 0, 0, 0, 0, 0, 0] 1 =
      [NF.nan, NF.nan, NF.nan, NF.nan, NF.nan, NF.nan, NF.nan, NF.nan] ∧
    NF.nan ∈ ucbScores [0, 0, 0, 0, 0, 0, 0, 0] [0, 0, 0, 0, 0, 0, 0, 0] 1 ∧
    nanArgmax (ucbScores [0, 0, 0, 0, 0, 0, 0, 0] [0, 0, 0, 0, 0, 0, 0, 0] 1) = 0 := by
  have h : ucbScores [0, 0, 0, 0, 0, 0, 0, 0] [0, 0, 0, 0, 0, 0, 0, 0] 1 =
      [NF.nan, NF.nan, NF.nan, NF.nan, NF.nan, NF.nan, NF.nan, NF.nan] := by
    norm_num [ucbScores, List.zip, List.zipWith, floatDiv, nfAddVal]
  refine ⟨h, ?_, ?_⟩
  · rw [h]; simp
  · rw [h]; simp [nanArgmax, NF.isNan]

/-- Claim C4 as amended: an action whose table cell was never updated
(visit count 0, cumulative reward 0) receives a nan UCB score, not
`+infinity`, and nan does propagate into the argmax; because numpy's
argmax treats nan as maximal and returns the first nan index, the
selected action is nevertheless the first never-tried action whenever
one exists, so never-tried actions are still explored first — in index
order, regardless of the other actions' scores. -/
theorem ucb_nan_argmax_first_unvisited (cum visits : List ℝ) (lbda : ℝ)
    (hlen : cum.length = visits.length)
    (hcells : ∀ i, i < visits.length →
      (visits.getD i 0 = 0 ∧ cum.getD i 0 = 0) ∨ 0 < visits.getD i 0)
    (hsome : ∃ i, i < visits.length ∧ visits.getD i 0 = 0) :
    NF.nan ∈ ucbScores cum visits lbda ∧
    ∃ k, k < visits.length ∧ nanArgmax (ucbScores cum visits lbda) = k ∧
      visits.getD k 0 = 0 ∧ cum.getD k 0 = 0 ∧
      ∀ j, j < k → 0 < visits.getD j 0 := by
  have hslen : (ucbScores cum visits lbda).length = visits.length :=
    ucbScores_length cum visits lbda hlen
  have hchar : ∀ i, i < visits.length →
      (((ucbScores cum visits lbda).getD i NF.nan).isNan = true ↔
        visits.getD i 0 = 0) := by
    intro i hi
    rw [ucbScores_getD cum visits lbda i (by omega) hi, isNan_score]
    constructor
    · exact fun hp => hp.1
    · intro hv
      rcases hcells i hi with ⟨hv0, hc0⟩ | hpos
      · exact ⟨hv0, hc0⟩
      · exact absurd hv (by intro h; rw [h] at hpos; exact lt_irrefl 0 hpos)
  have hgetD : ∀ i (hi : i < visits.length),
      (ucbScores cum visits lbda).getD i NF.nan =
        (ucbScores cum visits lbda).get ⟨i, by omega⟩ := by
    intro i hi
    exact List.getD_eq_getElem _ _ (by omega)
  obtain ⟨i0, hi0, hv0⟩ := hsome
  have hex : ∃ x ∈ ucbScores cum visits lbda, x.isNan = true := by
    refine ⟨(ucbScores cum visits lbda).get ⟨i0, by omega⟩, List.get_mem _ _ _, ?_⟩
    rw [← hgetD i0 hi0]
    exact (hchar i0 hi0).mpr hv0
  obtain ⟨k, hk, hargmax, hnan, hbefore⟩ := nanArgmax_first_nan _ hex
  have hkv : k < visits.length := by omega
  have hknan : ((ucbScores cum visits lbda).getD k NF.nan).isNan = true := by
    rw [hgetD k hkv]
    exact hnan
  have hkzero : visits.getD k 0 = 0 := (hchar k hkv).mp hknan
  have hkcum : cum.getD k 0 = 0 := by
    have := (isNan_score (cum.getD k 0) (visits.getD k 0)
      (lbda * Real.sqrt (2 * Real.log (1 + visits.sum) /
        (1 + visits.getD k 0)))).mp
    rw [← ucbScores_getD cum visits lbda k (by omega) hkv] at this
    exact (this hknan).2
  refine ⟨?_, k, hkv, hargmax, hkzero, hkcum, ?_⟩
  · obtain ⟨x, hxmem, hxnan⟩ := hex
    cases x with
    | nan => exact hxmem
    | posinf => simp [NF.isNan] at hxnan
    | neginf => simp [NF.isNan] at hxnan
    | val y => simp [NF.isNan] at hxnan
  · intro j hj
    have hjv : j < visits.length := by omega
    have hjnan : ((ucbScores cum visits lbda).getD j NF.nan).isNan = false := by
      rw [hgetD j hjv]
      exact hbefore j hj
    rcases hcells j hjv with ⟨hjz, hjc⟩ | hpos
    · exact absurd ((hchar j hjv).mpr hjz) (by rw [hjnan]; simp)
    · exact hpos

/-- Witness for `ucb_nan_argmax_first_unvisited`: with the row
`cum = [2, 0]`, `visits = [1, 0]` (action 0 visited once, action 1
never tried), the argmax picks action 1, the never-tried one. -/
theorem ucb_nan_argmax_first_unvisited_witness :
    NF.nan ∈ ucbScores [2, 0] [1, 0] 1 ∧
    ∃ k, k < ([1, 0] : List ℝ).length ∧
      nanArgmax (ucbScores [2, 0] [1, 0] 1) = k ∧
      ([1, 0] : List ℝ).getD k 0 = 0 ∧ ([2, 0] : List ℝ).getD k 0 = 0 ∧
      ∀ j, j < k → 0 < ([1, 0] : List ℝ).getD j 0 := by
  refine ucb_nan_argmax_first_unvisited [2, 0] [1, 0] 1 rfl ?_ ⟨1, by norm_num⟩
  intro i hi
  simp only [List.length_cons, List.length_nil] at hi
  interval_cases i
  · right
    norm_num
  · left
    norm_num

lemma sum_map_div (l : List ℝ) (c : ℝ) :
    (l.map (fun x => x / c)).sum = l.sum / c := by
  induction l with
  | nil => simp
  | cons x xs ih => simp [ih, add_div]

lemma exp_list_sum_pos (u : List ℝ) (hne : u ≠ []) (M : ℝ) :
    0 < (u.map (fun x => Real.exp (x - M))).sum := by
  apply List.sum_pos
  · intro x hx
    obtain ⟨y, _, rfl⟩ := List.mem_map.mp hx
    exact Real.exp_pos _
  · simpa using hne

lemma foldl_max_add (xs : List ℝ) (c : ℝ) :
    ∀ a : ℝ, (xs.map (fun x => x + c)).foldl max (a + c) = xs.foldl max a + c := by
  induction xs with
  | nil => intro a; rfl
  | cons y ys ih =>
      intro a
      show (ys.map (fun x => x + c)).foldl max (max (a + c) (y + c)) =
        ys.foldl max (max a y) + c
      rw [max_add_add_right a y c]
      exact ih (max a y)

lemma listMax_map_add (u : List ℝ) (c : ℝ) :
    u ≠ [] → listMax (u.map (fun x => x + c)) = listMax u + c := by
  cases u with
  | nil => intro h; exact absurd rfl h
  | cons x xs =>
      intro _
      show (xs.map (fun y => y + c)).foldl max (x + c) = xs.foldl max x + c
      exact foldl_max_add xs c x

/-- Claim C8: `softmax` computes `exp(u - max u)` normalized by its
sum, so for every nonempty input vector the output entries are
nonnegative and sum to 1, and the output is invariant under adding the
same constant to every entry; the `Softmax` selector applies it to the
mean-value row divided by the temperature (from which it samples). -/
theorem softmax_props :
    (∀ u : List ℝ, u ≠ [] →
      (∀ x ∈ softmax u, 0 ≤ x) ∧
      (softmax u).sum = 1 ∧
      (∀ c : ℝ, softmax (u.map (fun x => x + c)) = softmax u)) ∧
    (∀ (t : VTable) (sid : ℕ) (temperature : ℝ),
      softmaxDist t sid temperature =
        softmax ((meanRow t sid).map (fun x => x / temperature)) ∧
      (softmaxDist t sid temperature).sum = 1) := by
  have hmain : ∀ u : List ℝ, u ≠ [] →
      (∀ x ∈ softmax u, 0 ≤ x) ∧
      (softmax u).sum = 1 ∧
      (∀ c : ℝ, softmax (u.map (fun x => x + c)) = softmax u) := by
    intro u hne
    have hpos := exp_list_sum_pos u hne (listMax u)
    refine ⟨?_, ?_, ?_⟩
    · intro x hx
      obtain ⟨y, hy, rfl⟩ := List.mem_map.mp hx
      obtain ⟨z, _, rfl⟩ := List.mem_map.mp hy
      exact div_nonneg (Real.exp_pos _).le hpos.le
    · rw [softmax, sum_map_div, div_self (ne_of_gt hpos)]
    · intro c
      have hvexp : (u.map (fun x => x + c)).map
          (fun x => Real.exp (x - listMax (u.map (fun y => y + c)))) =
          u.map (fun x => Real.exp (x - listMax u)) := by
        rw [listMax_map_add u c hne, List.map_map]
        apply List.map_congr_left
        intro a _
        show Real.exp (a + c - (listMax u + c)) = Real.exp (a - listMax u)
        ring_nf
      rw [softmax, softmax, hvexp]
  refine ⟨hmain, ?_⟩
  intro t sid temperature
  have hne : (meanRow t sid).map (fun x => x / temperature) ≠ [] := by
    simp [meanRow, actionCount]
  exact ⟨rfl, (hmain _ hne).2.1⟩

/-- Witness for `softmax_props` at the concrete vector `u = [0, 1]`:
its softmax sums to 1. -/
theorem softmax_props_witness : (softmax [0, 1]).sum = 1 :=
  (softmax_props.1 [0, 1] (by simp)).2.1

end Wumpus
